import Mathlib

/-!
Verification of the rule compilation and evaluation engine of
`repology/transformer.py` (class `PackageTransformer`).

The Python source is shallowly embedded as follows.

* A compiled rule (the dict produced by `PackageTransformer.__init__` after
  list-normalisation and regexp compilation) becomes the structure `Rule`.
* A compiled regular expression (`re.compile(pat + "$", re.ASCII)`) is
  modelled extensionally as a function `RegexMatcher` from the string being
  matched to the optional list of match groups: `none` when `.match` returns
  no match, `some gs` when it matches, where `gs.get? 0` is the whole match
  and `gs.get? i` is capture group `i` (`some none` for a group that did not
  participate in the match).
* The rule packs built by `__init__` become `PackPre × List Nat`: a
  precondition tag plus the list of *indices* into the rule list (indices
  play the role of the shared mutable rule dicts, so that the `matches`
  counters can be threaded explicitly as a `List Nat`).
  The Python code builds each name-pack precondition as the closure
  `lambda name: name in names` over the *variable* `names` of `__init__`;
  since that variable is rebound as the scan proceeds, every such closure
  observes the final value of `names` when `Process` later calls it.  The
  embedding therefore stores a single `names` list in `PackageTransformer`
  (the value the variable holds when `__init__` returns) and the
  `PackPre.nameIn` preconditions all consult it.
* `Package` carries the four input fields plus the output fields
  (`effname`, `ignore`, `ignoreversion`).
* Python exceptions raised during `ApplyRule` (from `re.sub`) are modelled
  by `Option`: `none` means the call raises.
-/

/-- Extensional model of a compiled regular expression's `.match`:
`none` = no match; `some gs` = a match whose group `i` is `gs.get? i`
(group 0 is the whole match; a group that exists in the pattern but did not
participate in the match is `some none`, matching `match.group(i) is None`). -/
abbrev RegexMatcher := String → Option (List (Option String))

/-- A compiled rule: the rule dict after `__init__` normalised `name`, `ver`,
`category`, `family` to lists, compiled `namepat`/`verpat`, and stored the
pretty-printed source in `pretty`.  Python presence-flags (`ignore`, `last`,
...) become `Bool` fields; optional fields become `Option`. -/
structure Rule where
  name : Option (List String) := none
  namepat : Option RegexMatcher := none
  ver : Option (List String) := none
  verpat : Option RegexMatcher := none
  category : Option (List String) := none
  family : Option (List String) := none
  verlonger : Option Int := none
  ignore : Bool := false
  unignore : Bool := false
  ignorever : Bool := false
  unignorever : Bool := false
  last : Bool := false
  setname : Option String := none
  replaceinname : Option (List (String × String)) := none
  tolowername : Bool := false
  pretty : String := ""

/-- The five bits of `class MatchResult` (a flags bitmask in the source),
modelled as a structure of booleans. -/
structure MatchResultFlags where
  ignorepackage : Bool := false
  ignoreversion : Bool := false
  lastrule : Bool := false
  unignorepackage : Bool := false
  unignoreversion : Bool := false
deriving DecidableEq

/-- The two shapes of pack precondition closure built by `__init__`:
`lambda name: name in names` and `lambda name: True`. -/
inductive PackPre where
  | nameIn : PackPre
  | always : PackPre
deriving DecidableEq

/-- The engine state after `__init__`: the compiled rules, the rule packs
(each a precondition tag plus rule indices), and the final value of the
`names` variable that every `nameIn` closure observes (see module comment:
all those closures share the one variable of `__init__`). -/
structure PackageTransformer where
  rules : List Rule
  rulepacks : List (PackPre × List Nat)
  names : List String

/-- A package record: the four input fields read by the engine and the
output fields it writes. -/
structure Package where
  name : String
  version : String
  category : String
  family : String
  effname : Option String := none
  ignore : Bool := false
  ignoreversion : Bool := false
deriving DecidableEq

/-- The loop body of `__init__` lines 62-80: scan the rules, accumulating
`names` (the set of exact names seen) and `pack` (the rule indices of the
current name-pack; note the source appends the rule once *per name* because
`pack.append(rule)` sits inside `for name in rule['name']`), flushing a
`nameIn` pack when a rule without a `name` condition is met, which then
forms its own `always` singleton pack.  Returns the packs together with the
final value of the `names` variable.  Python's `names` is a `set`; a list
is used here, which agrees with the set on membership and emptiness. -/
def BuildPacksAux : List Rule → Nat → List String → List Nat →
    List (PackPre × List Nat) → List (PackPre × List Nat) × List String
  | [], _, names, pack, acc =>
    ((if names ≠ [] then acc ++ [(PackPre.nameIn, pack)] else acc), names)
  | r :: rs, i, names, pack, acc =>
    match r.name with
    | some nlist =>
      BuildPacksAux rs (i + 1) (names ++ nlist)
        (pack ++ nlist.map (fun _ => i)) acc
    | none =>
      BuildPacksAux rs (i + 1) [] []
        ((if names ≠ [] then acc ++ [(PackPre.nameIn, pack)] else acc)
          ++ [(PackPre.always, [i])])

/-- `PackageTransformer.__init__` restricted to what the claims need: the
rules are assumed already parsed and compiled (fields normalised), and the
packs are arranged exactly as lines 62-80 do. -/
def mkTransformer (rules : List Rule) : PackageTransformer :=
  let res := BuildPacksAux rules 0 [] [] []
  { rules := rules, rulepacks := res.1, names := res.2 }

/-- Evaluation of a pack precondition closure at `Process` time
(line 161 `precondition(transformed_name)`).  A `nameIn` closure consults
the shared `names` variable's final value. -/
def evalPrecondition (T : PackageTransformer) (p : PackPre)
    (pkgname : String) : Bool :=
  match p with
  | PackPre.nameIn => T.names.contains pkgname
  | PackPre.always => true

/-- `PackageTransformer.MatchRule`: the conjunction of the declared
conditions, in source order (family, category, name, namepat, ver, verpat,
verlonger).  `pkgversion.split('.')` is `String.splitOn "."`, which agrees
with Python `str.split` on a non-empty separator. -/
def MatchRule (r : Rule) (pkgname pkgversion pkgcategory pkgfamily : String) :
    Bool :=
  (match r.family with
   | some l => l.contains pkgfamily
   | none => true) &&
  (match r.category with
   | some l => l.contains pkgcategory
   | none => true) &&
  (match r.name with
   | some l => l.contains pkgname
   | none => true) &&
  (match r.namepat with
   | some p => (p pkgname).isSome
   | none => true) &&
  (match r.ver with
   | some l => l.contains pkgversion
   | none => true) &&
  (match r.verpat with
   | some p => (p pkgversion).isSome
   | none => true) &&
  (match r.verlonger with
   | some k => ((pkgversion.splitOn ".").length : Int) > k
   | none => true)

/-- Numeric value of a digit run, as `int(...)` computes it. -/
def digitsToNat (ds : List Char) : Nat :=
  ds.foldl (fun a c => a * 10 + (c.toNat - '0'.toNat)) 0

/-- One octal digit? -/
def isOctalDigit (c : Char) : Bool := '0' ≤ c && c ≤ '7'

/-- Numeric value of an octal digit run. -/
def octalVal (ds : List Char) : Nat :=
  ds.foldl (fun a c => a * 8 + (c.toNat - '0'.toNat)) 0

/-- Python `re` replacement-template expansion (`sre_parse.parse_template`)
of the *package name* when it is passed as the replacement string to
`self.dollar0.sub(pkgname, rule['setname'])`, specialised to that call's
pattern `\$0`, which contains zero capture groups and whose every match is
the two-character text `$0`.  A string without a backslash expands to
itself.  Backslash escapes: `\\`, `\a`, `\b`, `\f`, `\n`, `\r`, `\t`, `\v`
produce the escaped character; `\0` (plus up to two further octal digits)
is an octal character escape masked to one byte; a backslash followed by a
nonzero digit consumes up to two further digits — exactly three octal
digits with value at most octal 377 are an octal character escape, every
other case is a group reference, which raises `invalid group reference`
because the pattern has no groups (`none` here); `\g<number>` is a group
reference by index, legal only for index 0, which at every match site
expands to the matched text `$0` (any other index, or a malformed or named
`\g` reference, raises); a backslash followed by any other ASCII letter
raises `bad escape` (`none`); a backslash before any other character is
kept verbatim; a trailing backslash raises (`none`). -/
def expandRepl : List Char → Option (List Char)
  | [] => some []
  | '\\' :: rest =>
    match rest with
    | [] => none
    | c :: rest2 =>
      if c = '\\' then (fun l => '\\' :: l) <$> expandRepl rest2
      else if c = 'a' then (fun l => Char.ofNat 7 :: l) <$> expandRepl rest2
      else if c = 'b' then (fun l => Char.ofNat 8 :: l) <$> expandRepl rest2
      else if c = 'f' then (fun l => Char.ofNat 12 :: l) <$> expandRepl rest2
      else if c = 'n' then (fun l => Char.ofNat 10 :: l) <$> expandRepl rest2
      else if c = 'r' then (fun l => Char.ofNat 13 :: l) <$> expandRepl rest2
      else if c = 't' then (fun l => Char.ofNat 9 :: l) <$> expandRepl rest2
      else if c = 'v' then (fun l => Char.ofNat 11 :: l) <$> expandRepl rest2
      else if c = '0' then
        let os := (rest2.takeWhile isOctalDigit).take 2
        (fun l => Char.ofNat (octalVal ('0' :: os) % 256) :: l) <$>
          expandRepl (rest2.drop os.length)
      else if c.isDigit then
        if (rest2.take 2).length = 2 ∧ (rest2.take 2).all isOctalDigit
            ∧ isOctalDigit c ∧ octalVal (c :: rest2.take 2) ≤ 255 then
          (fun l => Char.ofNat (octalVal (c :: rest2.take 2)) :: l) <$>
            expandRepl (rest2.drop 2)
        else none
      else if c = 'g' then
        if rest2.take 1 = ['<']
            ∧ (rest2.drop 1).takeWhile Char.isDigit ≠ []
            ∧ ((rest2.drop 1).drop
                ((rest2.drop 1).takeWhile Char.isDigit).length).take 1 = ['>']
            ∧ digitsToNat ((rest2.drop 1).takeWhile Char.isDigit) = 0 then
          (fun l => '$' :: '0' :: l) <$>
            expandRepl ((rest2.drop 1).drop
              (((rest2.drop 1).takeWhile Char.isDigit).length + 1))
        else none
      else if c.isAlpha then none
      else (fun l => '\\' :: c :: l) <$> expandRepl rest2
  | c :: rest => (fun l => c :: l) <$> expandRepl rest
termination_by l => l.length
decreasing_by all_goals (simp <;> omega)

/-- Python `str.replace` on character lists, for a non-empty pattern
`p0 :: ps`: left-to-right, non-overlapping literal substring replacement. -/
def pyReplaceAux (p0 : Char) (ps rep : List Char) : List Char → List Char
  | [] => []
  | c :: rest =>
    if c == p0 && ps.isPrefixOf rest then
      rep ++ pyReplaceAux p0 ps rep (rest.drop ps.length)
    else
      c :: pyReplaceAux p0 ps rep rest
termination_by l => l.length
decreasing_by
  · simp [List.length_drop]; omega
  · simp

/-- Python `str.replace s pat rep` (every non-overlapping occurrence of
`pat` in `s` replaced by `rep`, scanning left to right; an empty pattern
interleaves `rep` around every character, as Python does). -/
def pyReplace (s pat rep : String) : String :=
  match pat.data with
  | [] => String.mk (rep.data ++ (s.data.map (fun c => c :: rep.data)).flatten)
  | p0 :: ps => String.mk (pyReplaceAux p0 ps rep.data s.data)

/-- Python `str.lower`, restricted to ASCII (all strings appearing in the
theorems below are ASCII; `Char.toLower` lowercases exactly `A`-`Z`). -/
def pyLower (s : String) : String := String.map Char.toLower s

/-- `self.dollarN.sub(lambda x: match.group(int(x.group(1))), setname)`:
scan the template; every maximal `$` + nonempty digit run is replaced by
the corresponding match group.  `none` models the exceptions: group index
out of range (`IndexError` from `match.group`) or a group that did not
participate (the lambda returns `None` and `re.sub` raises `TypeError`).
The lambda's result is inserted verbatim (function replacements undergo no
template-escape processing). -/
def dollarNSubAux (gs : List (Option String)) : List Char → Option (List Char)
  | [] => some []
  | c :: rest =>
    let ds := rest.takeWhile Char.isDigit
    if c = '$' ∧ ds ≠ [] then
      match gs.get? (digitsToNat ds) with
      | some (some s) =>
        (fun tail => s.data ++ tail) <$> dollarNSubAux gs (rest.drop ds.length)
      | _ => none
    else
      (fun tail => c :: tail) <$> dollarNSubAux gs rest
termination_by l => l.length
decreasing_by
  · simp [List.length_drop]; omega
  · simp

/-- String-level wrapper for `dollarNSubAux`. -/
def dollarNSub (gs : List (Option String)) (t : String) : Option String :=
  (dollarNSubAux gs t.data).map String.mk

/-- `self.dollar0.sub(pkgname, setname)`: `re.sub` first parses the
replacement string `pkgname` as a template (`expandRepl`; raising = `none`),
then replaces every occurrence of the two-character pattern `$0` in the
template `setname` by the expansion. -/
def dollar0Sub (pkgname t : String) : Option String :=
  match expandRepl pkgname.data with
  | none => none
  | some rep => some (pyReplace t "$0" (String.mk rep))

/-- The `if 'setname' in rule` block of `ApplyRule` (lines 138-145):
re-match `namepat` against the current name if present; on a match,
substitute `$N` placeholders from the capture groups; otherwise substitute
literal `$0` tokens by the (template-expanded) current name. -/
def SetnameStep (r : Rule) (pkgname : String) : Option String :=
  match r.setname with
  | none => some pkgname
  | some t =>
    match (match r.namepat with
           | some p => p pkgname
           | none => none) with
    | some gs => dollarNSub gs t
    | none => dollar0Sub pkgname t

/-- The `if 'replaceinname' in rule` block (lines 147-149): each
`(pattern, replacement)` pair applied as a literal substring replacement,
in declared order, each over the previous result. -/
def ReplaceinnameStep (r : Rule) (pkgname : String) : String :=
  match r.replaceinname with
  | none => pkgname
  | some m => m.foldl (fun acc pr => pyReplace acc pr.1 pr.2) pkgname

/-- The `if 'tolowername' in rule` block (lines 151-152). -/
def ToLowernameStep (r : Rule) (pkgname : String) : String :=
  if r.tolowername then pyLower pkgname else pkgname

/-- The flag bits set by lines 123-136 of `ApplyRule`, verbatim from the
rule's presence flags. -/
def ruleFlags (r : Rule) : MatchResultFlags :=
  { ignorepackage := r.ignore
    unignorepackage := r.unignore
    ignoreversion := r.ignorever
    unignoreversion := r.unignorever
    lastrule := r.last }

/-- `PackageTransformer.ApplyRule` (lines 120-154): compute the flags, then
transform the name through the setname / replaceinname / tolowername
blocks in that order.  `none` models an exception escaping from `re.sub`.
(`pkgversion` is a parameter of the source function but is unused, as in
the source.) -/
def ApplyRule (r : Rule) (pkgname pkgversion : String) :
    Option (MatchResultFlags × String) :=
  let flags : MatchResultFlags :=
    { ignorepackage := r.ignore
      unignorepackage := r.unignore
      ignoreversion := r.ignorever
      unignoreversion := r.unignorever
      lastrule := r.last }
  match (match r.setname with
         | none => some pkgname
         | some t =>
           match (match r.namepat with
                  | some p => p pkgname
                  | none => none) with
           | some gs => dollarNSub gs t
           | none => dollar0Sub pkgname t) with
  | none => none
  | some n1 =>
    let n2 := match r.replaceinname with
      | none => n1
      | some m => m.foldl (fun acc pr => pyReplace acc pr.1 pr.2) n1
    let n3 := if r.tolowername then pyLower n2 else n2
    some (flags, n3)

/-- The mutable state threaded through `Process`: the per-rule `matches`
counters (parallel to `rules`), the current `transformed_name`, and the
package's `ignore` / `ignoreversion` flags. -/
structure PState where
  counts : List Nat
  name : String
  ignore : Bool
  ignoreversion : Bool
deriving DecidableEq

/-- `rule['matches'] += 1` (line 168) for the rule at index `i`. -/
def bumpCount (counts : List Nat) (i : Nat) : List Nat :=
  counts.set i (counts.getD i 0 + 1)

/-- The body of the inner rule loop of `Process` after a successful match
(lines 168-182): bump the counter, apply the rule, and update the flags in
source order (`ignore` set, `ignoreversion` set, `unignore` clear,
`unignorever` clear). -/
def stepState (st : PState) (i : Nat) (flags : MatchResultFlags)
    (newname : String) : PState :=
  let counts1 := bumpCount st.counts i
  let ig1 := if flags.ignorepackage then true else st.ignore
  let iv1 := if flags.ignoreversion then true else st.ignoreversion
  let ig2 := if flags.unignorepackage then false else ig1
  let iv2 := if flags.unignoreversion then false else iv1
  ⟨counts1, newname, ig2, iv2⟩

/-- The inner loop `for rule in rulepack` of `Process` (lines 164-186) over
a list of rule indices.  Result `(st, true)` means a `last` rule fired
(the `return` on line 186); `none` means `ApplyRule` raised. -/
def ProcessPackRules (T : PackageTransformer)
    (version category family : String) :
    List Nat → PState → Option (PState × Bool)
  | [], st => some (st, false)
  | i :: rest, st =>
    let r := T.rules.getD i {}
    if MatchRule r st.name version category family then
      match ApplyRule r st.name version with
      | none => none
      | some (flags, newname) =>
        let st2 := stepState st i flags newname
        if flags.lastrule then some (st2, true)
        else ProcessPackRules T version category family rest st2
    else ProcessPackRules T version category family rest st

/-- The outer loop `for precondition, rulepack in self.rulepacks` of
`Process` (lines 160-186). -/
def ProcessPacks (T : PackageTransformer)
    (version category family : String) :
    List (PackPre × List Nat) → PState → Option (PState × Bool)
  | [], st => some (st, false)
  | (pre, idxs) :: rest, st =>
    if evalPrecondition T pre st.name then
      match ProcessPackRules T version category family idxs st with
      | none => none
      | some (st1, stopped) =>
        if stopped then some (st1, true)
        else ProcessPacks T version category family rest st1
    else ProcessPacks T version category family rest st

/-- `PackageTransformer.Process` (lines 156-188): thread the counters and
the package through the packs and finally write `effname`.  `none` models
an exception escaping (the source then never writes `effname`). -/
def Process (T : PackageTransformer) (counts : List Nat) (pkg : Package) :
    Option (List Nat × Package) :=
  match ProcessPacks T pkg.version pkg.category pkg.family T.rulepacks
      ⟨counts, pkg.name, pkg.ignore, pkg.ignoreversion⟩ with
  | none => none
  | some (st, _) =>
    some (st.counts,
      { pkg with
          effname := some st.name
          ignore := st.ignore
          ignoreversion := st.ignoreversion })

/-- Modelled from the spec: "evaluate every rule in original order,
skipping none" — the unpacked reference evaluation that the packing
optimisation is obliged to refine (spec §4.2, §8 packing equivalence).
Identical to `Process` except that the pack structure is ignored and every
rule index is visited once, in document order. -/
def ProcessFlat (T : PackageTransformer) (counts : List Nat)
    (pkg : Package) : Option (List Nat × Package) :=
  match ProcessPackRules T pkg.version pkg.category pkg.family
      (List.range T.rules.length)
      ⟨counts, pkg.name, pkg.ignore, pkg.ignoreversion⟩ with
  | none => none
  | some (st, _) =>
    some (st.counts,
      { pkg with
          effname := some st.name
          ignore := st.ignore
          ignoreversion := st.ignoreversion })

/-- The loop of `GetUnmatchedRules` (lines 190-197) over the rules and
their counters. -/
def GetUnmatchedRulesAux : List Rule → List Nat → List String
  | [], _ => []
  | _ :: _, [] => []
  | r :: rs, c :: cs =>
    if c = 0 then r.pretty :: GetUnmatchedRulesAux rs cs
    else GetUnmatchedRulesAux rs cs

/-- `PackageTransformer.GetUnmatchedRules`. -/
def GetUnmatchedRules (T : PackageTransformer) (counts : List Nat) :
    List String :=
  GetUnmatchedRulesAux T.rules counts

/-- The concatenation, in pack order, of the rule slices of all packs. -/
def packSlicesConcat (T : PackageTransformer) : List Nat :=
  (T.rulepacks.map Prod.snd).flatten

/-- Does the string avoid the backslash character?  (Sufficient for its
`re` replacement-template expansion to be itself.) -/
def noBackslash (s : String) : Bool := s.data.all (fun c => c != '\\')

/-- Companion checker to `dollarNSubAux`: `true` iff every `$`-digit-run
placeholder in the template references a group that exists and participated
in the match, i.e. iff `dollarNSubAux` raises no exception. -/
def dollarNRefsOk (gs : List (Option String)) : List Char → Bool
  | [] => true
  | c :: rest =>
    let ds := rest.takeWhile Char.isDigit
    if c = '$' ∧ ds ≠ [] then
      match gs.get? (digitsToNat ds) with
      | some (some _) => dollarNRefsOk gs (rest.drop ds.length)
      | _ => false
    else
      dollarNRefsOk gs rest
termination_by l => l.length
decreasing_by all_goals (simp <;> omega)

/-- Conditions under which the `setname` block of `ApplyRule` raises no
exception for the current name `n`: vacuous without `setname`; with a
matched `namepat`, every `$N` reference valid; in the `$0` fallback, a
backslash-free current name. -/
def SetnameSafe (r : Rule) (n : String) : Bool :=
  match r.setname with
  | none => true
  | some t =>
    match (match r.namepat with
           | some p => p n
           | none => none) with
    | some gs => dollarNRefsOk gs t.data
    | none => noBackslash n

/-- The flags returned by a successful `ApplyRule` are exactly the rule's
presence flags. -/
theorem ApplyRule_flags (r : Rule) (n v : String) (fl : MatchResultFlags)
    (out : String) (h : ApplyRule r n v = some (fl, out)) :
    fl = ruleFlags r := by
  simp only [ApplyRule] at h
  split at h
  · exact absurd h (by simp)
  · simp only [Option.some.injEq, Prod.mk.injEq] at h
    exact h.1.symm.trans rfl

/-- Unfolding `ProcessPackRules` over a matched head rule. -/
theorem ProcessPackRules_cons_of_match (T : PackageTransformer)
    (v c f : String) (i : Nat) (rest : List Nat) (st : PState)
    (fl : MatchResultFlags) (n' : String)
    (hm : MatchRule (T.rules.getD i {}) st.name v c f = true)
    (ha : ApplyRule (T.rules.getD i {}) st.name v = some (fl, n')) :
    ProcessPackRules T v c f (i :: rest) st =
      if fl.lastrule then some (stepState st i fl n', true)
      else ProcessPackRules T v c f rest (stepState st i fl n') := by
  simp only [ProcessPackRules, hm, ha, if_true]

/-- Unfolding `ProcessPackRules` over an unmatched head rule. -/
theorem ProcessPackRules_cons_of_no_match (T : PackageTransformer)
    (v c f : String) (i : Nat) (rest : List Nat) (st : PState)
    (hm : MatchRule (T.rules.getD i {}) st.name v c f = false) :
    ProcessPackRules T v c f (i :: rest) st =
      ProcessPackRules T v c f rest st := by
  simp only [ProcessPackRules, hm]
  simp

/-- `bumpCount` never decreases any counter. -/
theorem getD_bumpCount_le (counts : List Nat) (i j : Nat) :
    counts.getD j 0 ≤ (bumpCount counts i).getD j 0 := by
  induction counts generalizing i j with
  | nil => simp [bumpCount]
  | cons c cs ih =>
    cases i with
    | zero => cases j <;> simp [bumpCount, List.getD]
    | succ i =>
      cases j with
      | zero => simp [bumpCount, List.getD]
      | succ j =>
        simpa [bumpCount, List.getD] using ih i j

/-- In range, `bumpCount` increments the bumped counter by exactly one. -/
theorem getD_bumpCount_self (counts : List Nat) (i : Nat)
    (h : i < counts.length) :
    (bumpCount counts i).getD i 0 = counts.getD i 0 + 1 := by
  induction counts generalizing i with
  | nil => simp at h
  | cons c cs ih =>
    cases i with
    | zero => simp [bumpCount, List.getD]
    | succ i =>
      have : i < cs.length := by simpa using h
      simpa [bumpCount, List.getD] using ih i this

/-- A rule obtained through `getD` is a rule of the list or the default. -/
theorem getD_mem_or_default (l : List Rule) (i : Nat) :
    l.getD i {} ∈ l ∨ l.getD i {} = ({} : Rule) := by
  cases hg : l[i]? with
  | none => right; simp [List.getD, hg]
  | some r =>
    left
    have : l.getD i {} = r := by simp [List.getD, hg]
    rw [this]
    exact List.getElem?_mem hg

/-- Counters never decrease along the inner rule loop. -/
theorem ProcessPackRules_counts_mono (T : PackageTransformer)
    (v c f : String) :
    ∀ (idxs : List Nat) (st st1 : PState) (b : Bool),
      ProcessPackRules T v c f idxs st = some (st1, b) →
      ∀ j, st.counts.getD j 0 ≤ st1.counts.getD j 0 := by
  intro idxs
  induction idxs with
  | nil =>
    intro st st1 b h j
    simp only [ProcessPackRules, Option.some.injEq, Prod.mk.injEq] at h
    rw [← h.1]
  | cons i tl ih =>
    intro st st1 b h j
    by_cases hM : MatchRule (T.rules.getD i {}) st.name v c f
    · rw [ProcessPackRules] at h
      rw [if_pos hM] at h
      cases hA : ApplyRule (T.rules.getD i {}) st.name v with
      | none => rw [hA] at h; exact absurd h (by simp)
      | some p =>
        obtain ⟨fl, n'⟩ := p
        rw [hA] at h
        simp only at h
        by_cases hL : fl.lastrule
        · rw [if_pos hL] at h
          simp only [Option.some.injEq, Prod.mk.injEq] at h
          rw [← h.1]
          exact getD_bumpCount_le st.counts i j
        · rw [if_neg hL] at h
          exact le_trans (getD_bumpCount_le st.counts i j)
            (ih (stepState st i fl n') st1 b h j)
    · rw [ProcessPackRules] at h
      rw [if_neg hM] at h
      exact ih st st1 b h j

/-- Counters never decrease along the pack loop. -/
theorem ProcessPacks_counts_mono (T : PackageTransformer)
    (v c f : String) :
    ∀ (packs : List (PackPre × List Nat)) (st st1 : PState) (b : Bool),
      ProcessPacks T v c f packs st = some (st1, b) →
      ∀ j, st.counts.getD j 0 ≤ st1.counts.getD j 0 := by
  intro packs
  induction packs with
  | nil =>
    intro st st1 b h j
    simp only [ProcessPacks, Option.some.injEq, Prod.mk.injEq] at h
    rw [← h.1]
  | cons pk tl ih =>
    intro st st1 b h j
    obtain ⟨pre, idxs⟩ := pk
    rw [ProcessPacks] at h
    by_cases hP : evalPrecondition T pre st.name
    · rw [if_pos hP] at h
      cases hR : ProcessPackRules T v c f idxs st with
      | none => rw [hR] at h; exact absurd h (by simp)
      | some p =>
        obtain ⟨st2, stopped⟩ := p
        rw [hR] at h
        simp only at h
        by_cases hS : stopped
        · rw [if_pos hS] at h
          simp only [Option.some.injEq, Prod.mk.injEq] at h
          rw [← h.1]
          exact ProcessPackRules_counts_mono T v c f idxs st st2 stopped hR j
        · rw [if_neg hS] at h
          exact le_trans
            (ProcessPackRules_counts_mono T v c f idxs st st2 stopped hR j)
            (ih st2 st1 b h j)
    · rw [if_neg hP] at h
      exact ih st st1 b h j

/-- The inner rule loop dies on a matched head rule whose application
raises. -/
theorem ProcessPackRules_cons_of_apply_none (T : PackageTransformer)
    (v c f : String) (i : Nat) (rest : List Nat) (st : PState)
    (hm : MatchRule (T.rules.getD i {}) st.name v c f = true)
    (ha : ApplyRule (T.rules.getD i {}) st.name v = none) :
    ProcessPackRules T v c f (i :: rest) st = none := by
  simp only [ProcessPackRules, hm, ha, if_true]

/-- The inner rule loop processes an appended list by processing the first
part and continuing from its final state (unless a `last` rule stopped). -/
theorem ProcessPackRules_append (T : PackageTransformer) (v c f : String) :
    ∀ (idxs1 idxs2 : List Nat) (st : PState),
      ProcessPackRules T v c f (idxs1 ++ idxs2) st =
        match ProcessPackRules T v c f idxs1 st with
        | none => none
        | some (st1, stopped) =>
          if stopped then some (st1, true)
          else ProcessPackRules T v c f idxs2 st1 := by
  intro idxs1
  induction idxs1 with
  | nil =>
    intro idxs2 st
    simp [ProcessPackRules]
  | cons i tl ih =>
    intro idxs2 st
    rw [List.cons_append]
    by_cases hM : MatchRule (T.rules.getD i {}) st.name v c f
    · cases hA : ApplyRule (T.rules.getD i {}) st.name v with
      | none =>
        rw [ProcessPackRules_cons_of_apply_none T v c f i (tl ++ idxs2) st hM hA,
            ProcessPackRules_cons_of_apply_none T v c f i tl st hM hA]
      | some p =>
        obtain ⟨fl, n'⟩ := p
        rw [ProcessPackRules_cons_of_match T v c f i (tl ++ idxs2) st fl n' hM hA,
            ProcessPackRules_cons_of_match T v c f i tl st fl n' hM hA]
        by_cases hL : fl.lastrule
        · rw [if_pos hL, if_pos hL]
          rfl
        · rw [if_neg hL, if_neg hL, ih]
    · have hM2 : MatchRule (T.rules.getD i {}) st.name v c f = false := by
        simpa using hM
      rw [ProcessPackRules_cons_of_no_match T v c f i (tl ++ idxs2) st hM2,
          ProcessPackRules_cons_of_no_match T v c f i tl st hM2, ih]

/-- If no rule index in the slice matches at the current state, the inner
loop leaves the state untouched. -/
theorem ProcessPackRules_no_match (T : PackageTransformer) (v c f : String) :
    ∀ (idxs : List Nat) (st : PState),
      (∀ i ∈ idxs, MatchRule (T.rules.getD i {}) st.name v c f = false) →
      ProcessPackRules T v c f idxs st = some (st, false) := by
  intro idxs
  induction idxs with
  | nil => intro st _; simp [ProcessPackRules]
  | cons i tl ih =>
    intro st h
    rw [ProcessPackRules_cons_of_no_match T v c f i tl st (h i (by simp))]
    exact ih st (fun j hj => h j (by simp [hj]))

/-- If no rule of any pack matches at the current state, the pack loop
leaves the state untouched. -/
theorem ProcessPacks_no_match (T : PackageTransformer) (v c f : String) :
    ∀ (packs : List (PackPre × List Nat)) (st : PState),
      (∀ pr ∈ packs, ∀ i ∈ pr.2,
        MatchRule (T.rules.getD i {}) st.name v c f = false) →
      ProcessPacks T v c f packs st = some (st, false) := by
  intro packs
  induction packs with
  | nil => intro st _; simp [ProcessPacks]
  | cons pk tl ih =>
    intro st h
    obtain ⟨pre, idxs⟩ := pk
    rw [ProcessPacks]
    by_cases hP : evalPrecondition T pre st.name
    · rw [if_pos hP,
        ProcessPackRules_no_match T v c f idxs st (h (pre, idxs) (by simp))]
      simpa using ih st (fun pr hpr => h pr (by simp [hpr]))
    · rw [if_neg hP]
      exact ih st (fun pr hpr => h pr (by simp [hpr]))

/-- Every rule index stored by the pack builder is in range: starting from
in-range accumulators, all pack slices reference indices below the index
counter plus the number of rules left to scan. -/
theorem BuildPacksAux_idx_bound :
    ∀ (rs : List Rule) (i : Nat) (names : List String) (pack : List Nat)
      (acc : List (PackPre × List Nat)),
      (∀ j ∈ pack, j < i) →
      (∀ pr ∈ acc, ∀ j ∈ pr.2, j < i) →
      ∀ pr ∈ (BuildPacksAux rs i names pack acc).1, ∀ j ∈ pr.2,
        j < i + rs.length := by
  intro rs
  induction rs with
  | nil =>
    intro i names pack acc hpack hacc pr hpr j hj
    simp only [BuildPacksAux] at hpr
    by_cases hn : names ≠ []
    · rw [if_pos hn] at hpr
      simp only [List.mem_append, List.mem_singleton] at hpr
      rcases hpr with hpr | hpr
      · simpa using hacc pr hpr j hj
      · subst hpr; simpa using hpack j hj
    · rw [if_neg hn] at hpr
      simpa using hacc pr hpr j hj
  | cons r rs ih =>
    intro i names pack acc hpack hacc pr hpr j hj
    simp only [BuildPacksAux] at hpr
    cases hrn : r.name with
    | some nlist =>
      rw [hrn] at hpr
      have := ih (i + 1) (names ++ nlist) (pack ++ nlist.map (fun _ => i)) acc
        (by
          intro j hj
          rcases List.mem_append.mp hj with hj | hj
          · exact Nat.lt_succ_of_lt (hpack j hj)
          · obtain ⟨b, hb, hbe⟩ := List.mem_map.mp hj
            subst hbe
            exact Nat.lt_succ_self i)
        (fun pr hpr j hj => Nat.lt_succ_of_lt (hacc pr hpr j hj))
        pr hpr j hj
      simp only [List.length_cons]
      omega
    | none =>
      rw [hrn] at hpr
      have := ih (i + 1) [] []
        ((if names ≠ [] then acc ++ [(PackPre.nameIn, pack)] else acc)
          ++ [(PackPre.always, [i])])
        (by intro j hj; simp at hj)
        (by
          intro pr hpr j hj
          rcases List.mem_append.mp hpr with hpr | hpr
          · by_cases hn : names ≠ []
            · rw [if_pos hn] at hpr
              rcases List.mem_append.mp hpr with hpr | hpr
              · exact Nat.lt_succ_of_lt (hacc pr hpr j hj)
              · simp only [List.mem_singleton] at hpr
                subst hpr
                exact Nat.lt_succ_of_lt (hpack j hj)
            · rw [if_neg hn] at hpr
              exact Nat.lt_succ_of_lt (hacc pr hpr j hj)
          · simp only [List.mem_singleton] at hpr
            subst hpr
            simp only [List.mem_singleton] at hj
            omega)
        pr hpr j hj
      simp only [List.length_cons]
      omega

/-- Every rule index in the packs of a built transformer is in range. -/
theorem mkTransformer_idx_bound (rules : List Rule) :
    ∀ pr ∈ (mkTransformer rules).rulepacks, ∀ j ∈ pr.2,
      j < rules.length := by
  intro pr hpr j hj
  have := BuildPacksAux_idx_bound rules 0 [] [] []
    (by intro j hj; simp at hj) (by intro pr hpr; simp at hpr) pr hpr j hj
  simpa using this

/-- A backslash-free replacement string expands to itself. -/
theorem expandRepl_eq_self : ∀ (l : List Char), (∀ x ∈ l, x ≠ '\\') →
    expandRepl l = some l := by
  intro l
  induction l with
  | nil => intro _; simp [expandRepl]
  | cons c rest ih =>
    intro h
    have hc : c ≠ '\\' := h c (by simp)
    have hr : ∀ x ∈ rest, x ≠ '\\' := fun x hx => h x (by simp [hx])
    rw [expandRepl.eq_def]
    split
    · rename_i heq
      exact absurd heq (by simp)
    · rename_i heq
      injection heq with h1 _
      exact absurd h1 hc
    · rename_i c2 rest2 hne heq
      injection heq with h1 h2
      subst h1
      subst h2
      rw [ih hr]
      rfl

/-- If the reference checker passes, `$N` substitution raises nothing. -/
theorem dollarNSubAux_isSome (gs : List (Option String)) :
    ∀ (l : List Char), dollarNRefsOk gs l = true →
      (dollarNSubAux gs l).isSome = true
  | [] => by
    intro _
    simp [dollarNSubAux]
  | c :: rest => by
    intro h
    rw [dollarNRefsOk] at h
    rw [dollarNSubAux]
    by_cases h1 : c = '$' ∧ rest.takeWhile Char.isDigit ≠ []
    · rw [if_pos h1] at h ⊢
      cases hg : gs.get? (digitsToNat (rest.takeWhile Char.isDigit)) with
      | none =>
        rw [hg] at h
        exact absurd h (by simp)
      | some o =>
        cases o with
        | none =>
          rw [hg] at h
          exact absurd h (by simp)
        | some str =>
          rw [hg] at h
          have := dollarNSubAux_isSome gs
            (rest.drop (rest.takeWhile Char.isDigit).length) h
          cases hrec : dollarNSubAux gs
              (rest.drop (rest.takeWhile Char.isDigit).length) with
          | none => rw [hrec] at this; exact absurd this (by simp)
          | some tl => simp [hrec]
    · rw [if_neg h1] at h ⊢
      have := dollarNSubAux_isSome gs rest h
      cases hrec : dollarNSubAux gs rest with
      | none => rw [hrec] at this; exact absurd this (by simp)
      | some tl => simp [hrec]
termination_by l => l.length
decreasing_by
  · simp <;> omega
  · simp

/-- A safe `setname` block never raises. -/
theorem SetnameStep_isSome (r : Rule) (n : String)
    (h : SetnameSafe r n = true) : (SetnameStep r n).isSome = true := by
  rw [SetnameSafe] at h
  rw [SetnameStep]
  cases hs : r.setname with
  | none => simp
  | some t =>
    rw [hs] at h
    cases hp : (match r.namepat with
                | some p => p n
                | none => none) with
    | none =>
      rw [hp] at h
      unfold dollar0Sub
      have : expandRepl n.data = some n.data := by
        apply expandRepl_eq_self
        intro x hx
        have := (List.all_eq_true.mp h) x hx
        simpa using this
      rw [this]
      simp
    | some gs =>
      rw [hp] at h
      have := dollarNSubAux_isSome gs t.data h
      unfold dollarNSub
      cases hrec : dollarNSubAux gs t.data with
      | none => rw [hrec] at this; exact absurd this (by simp)
      | some l => simpa using this

/-- `ApplyRule` in terms of its three name-transformation stages. -/
theorem ApplyRule_eq_stages (r : Rule) (n v : String) :
    ApplyRule r n v = (SetnameStep r n).map
      (fun n1 => (ruleFlags r, ToLowernameStep r (ReplaceinnameStep r n1))) := by
  rw [ApplyRule, SetnameStep]
  cases hs : (match r.setname with
              | none => some n
              | some t =>
                match (match r.namepat with
                       | some p => p n
                       | none => none) with
                | some gs => dollarNSub gs t
                | none => dollar0Sub n t) with
  | none => rfl
  | some n1 =>
    rw [Option.map_some']
    rw [ReplaceinnameStep, ToLowernameStep, ruleFlags]

/-- A safe `ApplyRule` call never raises. -/
theorem ApplyRule_isSome (r : Rule) (n v : String)
    (h : SetnameSafe r n = true) : (ApplyRule r n v).isSome = true := by
  rw [ApplyRule_eq_stages]
  have := SetnameStep_isSome r n h
  cases hs : SetnameStep r n with
  | none => rw [hs] at this; exact absurd this (by simp)
  | some n1 => simp

/-! Concrete instances for the claims about the packing optimisation. -/

/-- Rule `{name: "a", setname: "b"}` (name list already normalised). -/
def ruleC1a : Rule := { name := some ["a"], setname := some "b", pretty := "rule C1a" }

/-- Rule `{}` with no conditions and no actions. -/
def ruleC1b : Rule := { pretty := "rule C1b" }

def tC1 : PackageTransformer := mkTransformer [ruleC1a, ruleC1b]

def pkgC1 : Package :=
  { name := "a", version := "1", category := "x", family := "f" }

/-- C1: packed evaluation is NOT equivalent to evaluating every rule in
original order.  In `__init__` every `lambda name: name in names` closure
reads the `names` variable, which is reset to the empty set when a rule
without a `name` condition follows a name pack; the earlier pack is then
always skipped.  On the rule set `[{name: "a", setname: "b"}, {}]` and the
package named `"a"`, packed evaluation skips the first pack entirely and
yields `effname = "a"`, while evaluating every rule in order applies the
rename and yields `effname = "b"`. -/
theorem packed_eval_differs_from_flat_eval :
    Process tC1 [0, 0] pkgC1 = some ([0, 1], { pkgC1 with effname := some "a" })
    ∧ ProcessFlat tC1 [0, 0] pkgC1 =
        some ([1, 1], { pkgC1 with effname := some "b" })
    ∧ Process tC1 [0, 0] pkgC1 ≠ ProcessFlat tC1 [0, 0] pkgC1 := by
  have h1 : Process tC1 [0, 0] pkgC1 =
      some ([0, 1], { pkgC1 with effname := some "a" }) := by
    simp [Process, ProcessPacks, ProcessPackRules, tC1, mkTransformer,
      BuildPacksAux, ruleC1a, ruleC1b, pkgC1, evalPrecondition, MatchRule,
      ApplyRule, stepState, bumpCount]
  have h2 : ProcessFlat tC1 [0, 0] pkgC1 =
      some ([1, 1], { pkgC1 with effname := some "b" }) := by
    simp [ProcessFlat, ProcessPackRules, tC1, mkTransformer, BuildPacksAux,
      ruleC1a, ruleC1b, pkgC1, evalPrecondition, MatchRule, ApplyRule,
      stepState, bumpCount, dollar0Sub, expandRepl, pyReplace, pyReplaceAux,
      List.range, List.range.loop]
  refine ⟨h1, h2, ?_⟩
  rw [h1, h2]
  simp [pkgC1]

/-- Rule `{name: ["a", "b"]}`: one rule with a two-element name list. -/
def ruleC2 : Rule := { name := some ["a", "b"], pretty := "rule C2" }

/-- C2: concatenating the pack slices does NOT reproduce the original rule
sequence: `pack.append(rule)` sits inside the `for name in rule['name']`
loop, so a rule with a two-element name list occurs twice in its pack
(`[0, 0]` instead of the original one-rule sequence `[0]`). -/
theorem pack_slices_concat_differs_from_original :
    packSlicesConcat (mkTransformer [ruleC2]) = [0, 0]
    ∧ packSlicesConcat (mkTransformer [ruleC2]) ≠
        List.range (mkTransformer [ruleC2]).rules.length := by
  constructor
  · simp [packSlicesConcat, mkTransformer, BuildPacksAux, ruleC2]
  · simp [packSlicesConcat, mkTransformer, BuildPacksAux, ruleC2, List.range,
      List.range.loop]

/-- Rule `{name: "a", setname: "b"}` for the cumulative-renaming claim. -/
def ruleC3a : Rule :=
  { name := some ["a"], setname := some "b", pretty := "rule C3a" }

/-- Rule `{name: "b", ignore: true}`: matches only the *renamed* name. -/
def ruleC3b : Rule :=
  { name := some ["b"], ignore := true, pretty := "rule C3b" }

def tC3 : PackageTransformer := mkTransformer [ruleC3a, ruleC3b]

def pkgC3 : Package :=
  { name := "a", version := "1", category := "x", family := "f" }

/-- C3: rule matching and pack preconditions are evaluated against the
current transformed name, not the original package name.  First conjunct:
the rule loop over a concatenation continues with the state (in particular
the name) produced by the earlier rules.  Second conjunct: the pack loop
applies the precondition to the *current* state's name.  Third and fourth
conjuncts: concretely, after `{name: "a", setname: "b"}` renames the
package `"a"`, the later rule `{name: "b", ignore: true}` matches (its
counter becomes 1 and `ignore` is set) even though it does not match the
original name `"a"`. -/
theorem matching_uses_current_transformed_name :
    (∀ (T : PackageTransformer) (v c f : String) (idxs1 idxs2 : List Nat)
       (st : PState),
      ProcessPackRules T v c f (idxs1 ++ idxs2) st =
        match ProcessPackRules T v c f idxs1 st with
        | none => none
        | some (st1, stopped) =>
          if stopped then some (st1, true)
          else ProcessPackRules T v c f idxs2 st1)
    ∧ (∀ (T : PackageTransformer) (v c f : String) (pre : PackPre)
         (idxs : List Nat) (rest : List (PackPre × List Nat)) (st : PState),
        ProcessPacks T v c f ((pre, idxs) :: rest) st =
          if evalPrecondition T pre st.name then
            match ProcessPackRules T v c f idxs st with
            | none => none
            | some (st1, stopped) =>
              if stopped then some (st1, true)
              else ProcessPacks T v c f rest st1
          else ProcessPacks T v c f rest st)
    ∧ Process tC3 [0, 0] pkgC3 =
        some ([1, 1], { pkgC3 with effname := some "b", ignore := true })
    ∧ MatchRule ruleC3b pkgC3.name pkgC3.version pkgC3.category pkgC3.family
        = false := by
  refine ⟨ProcessPackRules_append, ?_, ?_, ?_⟩
  · intro T v c f pre idxs rest st
    rw [ProcessPacks]
  · simp [Process, ProcessPacks, ProcessPackRules, tC3, mkTransformer,
      BuildPacksAux, ruleC3a, ruleC3b, pkgC3, evalPrecondition, MatchRule,
      ApplyRule, stepState, bumpCount, dollar0Sub, expandRepl, pyReplace,
      pyReplaceAux]
  · simp [MatchRule, ruleC3b, pkgC3]

/-- C3 witness: the composition property at a concrete instance. -/
theorem matching_uses_current_transformed_name_witness :
    ProcessPackRules tC3 "1" "x" "f" ([0] ++ [1])
        ⟨[0, 0], "a", false, false⟩ =
      match ProcessPackRules tC3 "1" "x" "f" [0] ⟨[0, 0], "a", false, false⟩ with
      | none => none
      | some (st1, stopped) =>
        if stopped then some (st1, true)
        else ProcessPackRules tC3 "1" "x" "f" [1] st1 :=
  matching_uses_current_transformed_name.1 tC3 "1" "x" "f" [0] [1]
    ⟨[0, 0], "a", false, false⟩

/-- Model of `re.compile("lib(.*)" + "$", re.ASCII).match` on newline-free
strings: matching anchors at the start, `lib` must be a literal prefix, the
single capture group greedily takes the rest, and the appended `$` accepts
the end of the string.  Group 0 is the whole match. -/
def libPattern : RegexMatcher := fun s =>
  if ['l', 'i', 'b'].isPrefixOf s.data then some [some s, some (s.drop 3)]
  else none

/-- Rule `{namepat: "lib(.*)", setname: "$1"}`. -/
def libRule : Rule :=
  { namepat := some libPattern, setname := some "$1", pretty := "rule lib" }

/-- Rule `{setname: "prefix-$0"}` with no namepat. -/
def pfxRule : Rule := { setname := some "prefix-$0", pretty := "rule pfx" }

/-- Rule `{setname: "x$0"}` with no namepat, used on backslashed names. -/
def bsRule : Rule := { setname := some "x$0", pretty := "rule bs" }

/-- C4 counterexample: with rule `{setname: "x$0"}` (no namepat) and
current name `a\n` (the three characters `a`, backslash, `n`), the claim
says the new name is the template with `$0` replaced by the name *string*,
i.e. `x` ++ `a\n` (four characters, computed here by the literal
replacement `pyReplace "x$0" "$0" "a\\n"`).  The code instead passes the
name to `re.sub` as a replacement template, whose escape processing turns
backslash-`n` into a newline: the result is `xa` followed by a newline
character. -/
theorem setname_fallback_not_literal_on_backslash_name :
    ApplyRule bsRule "a\\n" "1" = some ({}, "xa\n")
    ∧ pyReplace "x$0" "$0" "a\\n" = "xa\\n"
    ∧ ApplyRule bsRule "a\\n" "1" ≠
        some ({}, pyReplace "x$0" "$0" "a\\n") := by
  have h1 : ApplyRule bsRule "a\\n" "1" = some ({}, "xa\n") := by
    simp [ApplyRule, bsRule, dollar0Sub, expandRepl, pyReplace, pyReplaceAux]
  have h2 : pyReplace "x$0" "$0" "a\\n" = "xa\\n" := by
    simp [pyReplace, pyReplaceAux]
  refine ⟨h1, h2, ?_⟩
  rw [h1, h2]
  simp

/-- C4 (amended): if `setname` is present and `namepat` matches the current
name, the new name is the template with every `$N` placeholder substituted
from the match groups (`dollarNSub`); if `namepat` is absent or fails to
match **and the current name contains no backslash**, the new name is the
template with every literal `$0` token replaced by the current name string
(a literal, left-to-right substring replacement).  The two examples of the
claim hold. -/
theorem setname_substitution_amended :
    (∀ (r : Rule) (n t : String) (p : RegexMatcher) (gs : List (Option String)),
       r.setname = some t → r.namepat = some p → p n = some gs →
       SetnameStep r n = dollarNSub gs t)
    ∧ (∀ (r : Rule) (n t : String), r.setname = some t → r.namepat = none →
       noBackslash n = true → SetnameStep r n = some (pyReplace t "$0" n))
    ∧ (∀ (r : Rule) (n t : String) (p : RegexMatcher), r.setname = some t →
       r.namepat = some p → p n = none → noBackslash n = true →
       SetnameStep r n = some (pyReplace t "$0" n))
    ∧ ApplyRule libRule "libfoo" "1" = some ({}, "foo")
    ∧ ApplyRule pfxRule "foo" "1" = some ({}, "prefix-foo") := by
  have hmk : ∀ n : String, String.mk n.data = n := by
    intro n; cases n; rfl
  have hbs : ∀ n : String, noBackslash n = true →
      expandRepl n.data = some n.data := by
    intro n hn
    apply expandRepl_eq_self
    intro x hx
    have := (List.all_eq_true.mp hn) x hx
    simpa using this
  refine ⟨?_, ?_, ?_, ?_, ?_⟩
  · intro r n t p gs hset hpat hm
    unfold SetnameStep
    simp only [hset, hpat, hm]
  · intro r n t hset hpat hn
    unfold SetnameStep
    simp only [hset, hpat]
    unfold dollar0Sub
    simp only [hbs n hn]
  · intro r n t p hset hpat hm hn
    unfold SetnameStep
    simp only [hset, hpat, hm]
    unfold dollar0Sub
    simp only [hbs n hn]
  · simp +decide [ApplyRule, libRule, libPattern, dollarNSub, dollarNSubAux,
      digitsToNat]
  · simp [ApplyRule, pfxRule, dollar0Sub, expandRepl, pyReplace, pyReplaceAux]

/-- C4 witness: the backslash-free `$0` fallback at a concrete input. -/
theorem setname_substitution_amended_witness :
    SetnameStep pfxRule "bar" = some (pyReplace "prefix-$0" "$0" "bar") :=
  setname_substitution_amended.2.1 pfxRule "bar" "prefix-$0" rfl rfl
    (by decide)

/-- Rule `{setname: "y$0"}` for the totality counterexample. -/
def ruleC5 : Rule := { setname := some "y$0", pretty := "rule C5" }

def tC5 : PackageTransformer := mkTransformer [ruleC5]

/-- A package whose name is `a`, backslash, `1`. -/
def pkgC5 : Package :=
  { name := "a\\1", version := "1", category := "x", family := "f" }

/-- C5 counterexample: `Process` is not total for every package with string
fields.  With the well-formed rule `{setname: "y$0"}` and the package named
`a\1`, the `$0` fallback passes the name to `re.sub` as a replacement
template; `\1` is a group reference into a pattern with no groups, so
`re.sub` raises `invalid group reference` and `Process` dies (modelled by
`none`). -/
theorem process_raises_on_backslash_name :
    Process tC5 [0] pkgC5 = none := by
  simp [Process, ProcessPacks, ProcessPackRules, tC5, mkTransformer,
    BuildPacksAux, ruleC5, pkgC5, evalPrecondition, MatchRule, ApplyRule,
    dollar0Sub, expandRepl]

/-- With no `setname`, the rule loop cannot raise. -/
theorem ProcessPackRules_isSome_of_no_setname (T : PackageTransformer)
    (v c f : String) (hall : ∀ i, (T.rules.getD i {}).setname = none) :
    ∀ (idxs : List Nat) (st : PState),
      (ProcessPackRules T v c f idxs st).isSome = true := by
  intro idxs
  induction idxs with
  | nil => intro st; simp [ProcessPackRules]
  | cons i tl ih =>
    intro st
    by_cases hM : MatchRule (T.rules.getD i {}) st.name v c f
    · have hA : ApplyRule (T.rules.getD i {}) st.name v =
          some (ruleFlags (T.rules.getD i {}),
            ToLowernameStep (T.rules.getD i {})
              (ReplaceinnameStep (T.rules.getD i {}) st.name)) := by
        rw [ApplyRule_eq_stages]
        unfold SetnameStep
        rw [hall i]
        rfl
      rw [ProcessPackRules_cons_of_match T v c f i tl st _ _ hM hA]
      by_cases hL : (ruleFlags (T.rules.getD i {})).lastrule
      · rw [if_pos hL]; rfl
      · rw [if_neg hL]; exact ih _
    · rw [ProcessPackRules_cons_of_no_match T v c f i tl st (by simpa using hM)]
      exact ih st

/-- With no `setname` anywhere, the pack loop cannot raise. -/
theorem ProcessPacks_isSome_of_no_setname (T : PackageTransformer)
    (v c f : String) (hall : ∀ i, (T.rules.getD i {}).setname = none) :
    ∀ (packs : List (PackPre × List Nat)) (st : PState),
      (ProcessPacks T v c f packs st).isSome = true := by
  intro packs
  induction packs with
  | nil => intro st; simp [ProcessPacks]
  | cons pk tl ih =>
    intro st
    obtain ⟨pre, idxs⟩ := pk
    rw [ProcessPacks]
    by_cases hP : evalPrecondition T pre st.name
    · rw [if_pos hP]
      have := ProcessPackRules_isSome_of_no_setname T v c f hall idxs st
      cases hR : ProcessPackRules T v c f idxs st with
      | none => rw [hR] at this; exact absurd this (by simp)
      | some p =>
        obtain ⟨st1, stopped⟩ := p
        by_cases hS : stopped
        · subst hS; rfl
        · have hS2 : stopped = false := by simpa using hS
          subst hS2
          simpa using ih st1
    · rw [if_neg hP]
      exact ih st

/-- Run safety for the inner rule loop: every rule matched along the run
has a `setname` block that is safe for the name *current at that point*
(the state is stepped exactly as the loop steps it; the `none` arm is
unreachable under the safety test and conservatively records failure). -/
def SafeRunRules (T : PackageTransformer)
    (version category family : String) :
    List Nat → PState → Bool
  | [], _ => true
  | i :: rest, st =>
    let r := T.rules.getD i {}
    if MatchRule r st.name version category family then
      if SetnameSafe r st.name then
        match ApplyRule r st.name version with
        | none => false
        | some (flags, newname) =>
          if flags.lastrule then true
          else SafeRunRules T version category family rest
            (stepState st i flags newname)
      else false
    else SafeRunRules T version category family rest st

/-- Run safety for the pack loop: every pack entered is run-safe, the
continuation state being the one the rule loop produces. -/
def SafeRunPacks (T : PackageTransformer)
    (version category family : String) :
    List (PackPre × List Nat) → PState → Bool
  | [], _ => true
  | (pre, idxs) :: rest, st =>
    if evalPrecondition T pre st.name then
      if SafeRunRules T version category family idxs st then
        match ProcessPackRules T version category family idxs st with
        | none => false
        | some (st1, stopped) =>
          if stopped then true
          else SafeRunPacks T version category family rest st1
      else false
    else SafeRunPacks T version category family rest st

/-- Every `ApplyRule` call along the `Process` run of this package
satisfies the `setname` safety condition. -/
def ProcessSafe (T : PackageTransformer) (counts : List Nat)
    (pkg : Package) : Bool :=
  SafeRunPacks T pkg.version pkg.category pkg.family T.rulepacks
    ⟨counts, pkg.name, pkg.ignore, pkg.ignoreversion⟩

/-- A run-safe rule loop never raises. -/
theorem ProcessPackRules_isSome_of_safe (T : PackageTransformer)
    (v c f : String) :
    ∀ (idxs : List Nat) (st : PState),
      SafeRunRules T v c f idxs st = true →
      (ProcessPackRules T v c f idxs st).isSome = true := by
  intro idxs
  induction idxs with
  | nil => intro st _; simp [ProcessPackRules]
  | cons i tl ih =>
    intro st h
    rw [SafeRunRules] at h
    by_cases hM : MatchRule (T.rules.getD i {}) st.name v c f
    · rw [if_pos hM] at h
      by_cases hS : SetnameSafe (T.rules.getD i {}) st.name
      · rw [if_pos hS] at h
        cases hA : ApplyRule (T.rules.getD i {}) st.name v with
        | none =>
          have := ApplyRule_isSome (T.rules.getD i {}) st.name v hS
          rw [hA] at this
          exact absurd this (by simp)
        | some p =>
          obtain ⟨fl, n'⟩ := p
          simp only [hA] at h
          rw [ProcessPackRules_cons_of_match T v c f i tl st fl n' hM hA]
          by_cases hL : fl.lastrule
          · rw [if_pos hL]; rfl
          · rw [if_neg hL] at h ⊢
            exact ih (stepState st i fl n') h
      · rw [if_neg hS] at h
        exact absurd h (by simp)
    · rw [if_neg hM] at h
      rw [ProcessPackRules_cons_of_no_match T v c f i tl st
        (by simpa using hM)]
      exact ih st h

/-- A run-safe pack loop never raises. -/
theorem ProcessPacks_isSome_of_safe (T : PackageTransformer)
    (v c f : String) :
    ∀ (packs : List (PackPre × List Nat)) (st : PState),
      SafeRunPacks T v c f packs st = true →
      (ProcessPacks T v c f packs st).isSome = true := by
  intro packs
  induction packs with
  | nil => intro st _; simp [ProcessPacks]
  | cons pk tl ih =>
    intro st h
    obtain ⟨pre, idxs⟩ := pk
    rw [SafeRunPacks] at h
    rw [ProcessPacks]
    by_cases hP : evalPrecondition T pre st.name
    · rw [if_pos hP] at h ⊢
      by_cases hS : SafeRunRules T v c f idxs st
      · rw [if_pos hS] at h
        have hsome := ProcessPackRules_isSome_of_safe T v c f idxs st hS
        cases hR : ProcessPackRules T v c f idxs st with
        | none =>
          rw [hR] at hsome
          exact absurd hsome (by simp)
        | some p =>
          obtain ⟨st1, stopped⟩ := p
          rw [hR] at h
          cases stopped with
          | true => rfl
          | false =>
            have h2 : SafeRunPacks T v c f tl st1 = true := by
              simpa using h
            simpa using ih st1 h2
      · rw [if_neg hS] at h
        exact absurd h (by simp)
    · rw [if_neg hP] at h ⊢
      exact ih st h

/-- C5 (amended): `MatchRule` is a total boolean function by construction;
`ApplyRule` never raises provided the rule's `setname` is safe for the
current name (every `$N` placeholder references an existing participating
capture group when `namepat` matches, and the current name is
backslash-free when the `$0` fallback runs); `Process` never raises
whenever every `ApplyRule` call along its run satisfies that safety
condition for the name current at that point (`ProcessSafe`); in
particular it never raises on rule sets with no `setname` actions at
all. -/
theorem per_package_evaluation_total_amended :
    (∀ (r : Rule) (n v : String), SetnameSafe r n = true →
      (ApplyRule r n v).isSome = true)
    ∧ (∀ (T : PackageTransformer) (counts : List Nat) (pkg : Package),
        ProcessSafe T counts pkg = true →
        (Process T counts pkg).isSome = true)
    ∧ (∀ (T : PackageTransformer) (counts : List Nat) (pkg : Package),
        (∀ r ∈ T.rules, r.setname = none) →
        (Process T counts pkg).isSome = true) := by
  refine ⟨fun r n v h => ApplyRule_isSome r n v h, ?_, ?_⟩
  · intro T counts pkg hsafe
    rw [ProcessSafe] at hsafe
    rw [Process]
    have := ProcessPacks_isSome_of_safe T pkg.version pkg.category
      pkg.family T.rulepacks
      ⟨counts, pkg.name, pkg.ignore, pkg.ignoreversion⟩ hsafe
    cases hR : ProcessPacks T pkg.version pkg.category pkg.family T.rulepacks
        ⟨counts, pkg.name, pkg.ignore, pkg.ignoreversion⟩ with
    | none => rw [hR] at this; exact absurd this (by simp)
    | some p => rfl
  · intro T counts pkg hnone
    have hall : ∀ i : Nat, (T.rules.getD i {}).setname = none := by
      intro i
      rcases getD_mem_or_default T.rules i with hmem | hdef
      · exact hnone _ hmem
      · rw [hdef]
    rw [Process]
    have := ProcessPacks_isSome_of_no_setname T pkg.version pkg.category
      pkg.family hall T.rulepacks
      ⟨counts, pkg.name, pkg.ignore, pkg.ignoreversion⟩
    cases hR : ProcessPacks T pkg.version pkg.category pkg.family T.rulepacks
        ⟨counts, pkg.name, pkg.ignore, pkg.ignoreversion⟩ with
    | none => rw [hR] at this; exact absurd this (by simp)
    | some p => rfl

/-- Rule `{setname: "w$0"}` for the totality witness. -/
def ruleC5w : Rule := { setname := some "w$0", pretty := "rule C5w" }

def pkgC5w : Package :=
  { name := "ok", version := "1", category := "x", family := "f" }

/-- C5 witness: a safe concrete rule application is defined, and a
concrete run-safe `Process` call — on a rule set that does contain a
`setname` action — is defined. -/
theorem per_package_evaluation_total_amended_witness :
    (ApplyRule ruleC5w "ok" "1").isSome = true
    ∧ (Process (mkTransformer [ruleC5w]) [0] pkgC5w).isSome = true :=
  ⟨per_package_evaluation_total_amended.1 ruleC5w "ok" "1" (by decide),
   per_package_evaluation_total_amended.2.1 (mkTransformer [ruleC5w]) [0]
     pkgC5w
     (by
       simp [ProcessSafe, SafeRunPacks, SafeRunRules, mkTransformer,
         BuildPacksAux, ruleC5w, pkgC5w, evalPrecondition, MatchRule,
         ApplyRule, SetnameSafe, noBackslash, ProcessPackRules, stepState,
         bumpCount, dollar0Sub, expandRepl, pyReplace, pyReplaceAux])⟩

/-- A matched `last` rule at the head of the current pack makes the whole
pack loop stop at once with the stepped state. -/
theorem ProcessPacks_last_stop (T : PackageTransformer) (v c f : String)
    (pre : PackPre) (i : Nat) (rest : List Nat)
    (morePacks : List (PackPre × List Nat)) (st : PState)
    (fl : MatchResultFlags) (n' : String)
    (hpre : evalPrecondition T pre st.name = true)
    (hm : MatchRule (T.rules.getD i {}) st.name v c f = true)
    (hl : (T.rules.getD i {}).last = true)
    (ha : ApplyRule (T.rules.getD i {}) st.name v = some (fl, n')) :
    ProcessPacks T v c f ((pre, i :: rest) :: morePacks) st =
      some (stepState st i fl n', true) := by
  have hfl : fl = ruleFlags (T.rules.getD i {}) := ApplyRule_flags _ _ _ _ _ ha
  have hlast : fl.lastrule = true := by
    rw [hfl]
    simpa [ruleFlags] using hl
  rw [ProcessPacks, if_pos hpre,
    ProcessPackRules_cons_of_match T v c f i rest st fl n' hm ha,
    if_pos hlast]
  rfl

/-- C6: a matching rule carrying `last` halts everything: the result state
is a function of the state before the rule alone — the remaining rules of
the same pack (`rest`) and all later packs (`morePacks`) do not appear in
it, so they are never matched or applied and no later counter moves (only
index `i` is bumped).  Second conjunct: at `Process` level, `effname` is
set to the name produced by that rule and the call returns. -/
theorem last_rule_stops_all_processing :
    (∀ (T : PackageTransformer) (v c f : String) (pre : PackPre) (i : Nat)
       (rest : List Nat) (morePacks : List (PackPre × List Nat)) (st : PState)
       (fl : MatchResultFlags) (n' : String),
      evalPrecondition T pre st.name = true →
      MatchRule (T.rules.getD i {}) st.name v c f = true →
      (T.rules.getD i {}).last = true →
      ApplyRule (T.rules.getD i {}) st.name v = some (fl, n') →
      ProcessPacks T v c f ((pre, i :: rest) :: morePacks) st =
        some (stepState st i fl n', true))
    ∧ (∀ (T : PackageTransformer) (counts : List Nat) (pkg : Package)
         (pre : PackPre) (i : Nat) (rest : List Nat)
         (morePacks : List (PackPre × List Nat)) (fl : MatchResultFlags)
         (n' : String),
        T.rulepacks = (pre, i :: rest) :: morePacks →
        evalPrecondition T pre pkg.name = true →
        MatchRule (T.rules.getD i {}) pkg.name pkg.version pkg.category
          pkg.family = true →
        (T.rules.getD i {}).last = true →
        ApplyRule (T.rules.getD i {}) pkg.name pkg.version = some (fl, n') →
        Process T counts pkg = some (bumpCount counts i,
          { pkg with
              effname := some n'
              ignore := (stepState ⟨counts, pkg.name, pkg.ignore,
                pkg.ignoreversion⟩ i fl n').ignore
              ignoreversion := (stepState ⟨counts, pkg.name, pkg.ignore,
                pkg.ignoreversion⟩ i fl n').ignoreversion })) := by
  constructor
  · exact ProcessPacks_last_stop
  · intro T counts pkg pre i rest morePacks fl n' hpacks hpre hm hl ha
    rw [Process, hpacks,
      ProcessPacks_last_stop T pkg.version pkg.category pkg.family pre i rest
        morePacks ⟨counts, pkg.name, pkg.ignore, pkg.ignoreversion⟩ fl n'
        hpre hm hl ha]
    rfl

/-- Rule `{ignore: true, last: true}`. -/
def ruleC6a : Rule := { ignore := true, last := true, pretty := "rule C6a" }

/-- A later rule that would match everything, but must never run. -/
def ruleC6b : Rule := { pretty := "rule C6b" }

def tC6 : PackageTransformer := mkTransformer [ruleC6a, ruleC6b]

/-- C6 witness: the halt at a concrete engine and state. -/
theorem last_rule_stops_all_processing_witness :
    ProcessPacks tC6 "1" "x" "f"
        ((PackPre.always, [0]) :: [(PackPre.always, [1])])
        ⟨[0, 0], "n", false, false⟩ =
      some (stepState ⟨[0, 0], "n", false, false⟩ 0 (ruleFlags ruleC6a) "n",
        true) :=
  last_rule_stops_all_processing.1 tC6 "1" "x" "f" PackPre.always 0 [1]
    [(PackPre.always, [1])] ⟨[0, 0], "n", false, false⟩ (ruleFlags ruleC6a)
    "n" rfl rfl rfl rfl

/-- In-range `getD` returns a member of the list. -/
theorem getD_mem_of_lt {α : Type} (l : List α) (i : Nat) (d : α)
    (h : i < l.length) : l.getD i d ∈ l := by
  have h2 : l[i]? = some (l[i]) := List.getElem?_eq_getElem h
  have h3 : l.getD i d = l[i] := by simp [List.getD, h2]
  rw [h3]
  exact List.getElem_mem h

/-- C7: a package whose attributes satisfy no rule of the rule set comes
out of `Process` with `effname` equal to its original name and (starting
from false) with both flags still false; the counters are untouched. -/
theorem no_match_identity (rs : List Rule) (counts : List Nat) (pkg : Package)
    (hnm : ∀ r ∈ rs,
      MatchRule r pkg.name pkg.version pkg.category pkg.family = false)
    (hig : pkg.ignore = false) (hiv : pkg.ignoreversion = false) :
    Process (mkTransformer rs) counts pkg =
      some (counts, { pkg with
        effname := some pkg.name
        ignore := false
        ignoreversion := false }) := by
  have hnm2 : ∀ pr ∈ (mkTransformer rs).rulepacks, ∀ i ∈ pr.2,
      MatchRule ((mkTransformer rs).rules.getD i {}) pkg.name pkg.version
        pkg.category pkg.family = false := by
    intro pr hpr i hi
    have hlt := mkTransformer_idx_bound rs pr hpr i hi
    have hmem : (mkTransformer rs).rules.getD i {} ∈ rs :=
      getD_mem_of_lt rs i {} hlt
    exact hnm _ hmem
  rw [Process, ProcessPacks_no_match (mkTransformer rs) pkg.version
    pkg.category pkg.family (mkTransformer rs).rulepacks
    ⟨counts, pkg.name, pkg.ignore, pkg.ignoreversion⟩ hnm2]
  rw [show pkg.ignore = false from hig, show pkg.ignoreversion = false from hiv]

/-- Rule `{name: "z"}`: matches only packages named `z`. -/
def ruleC7 : Rule := { name := some ["z"], pretty := "rule C7" }

def pkgC7 : Package :=
  { name := "a", version := "1", category := "x", family := "f" }

/-- C7 witness: the identity at a concrete non-matching rule set. -/
theorem no_match_identity_witness :
    Process (mkTransformer [ruleC7]) [0] pkgC7 =
      some ([0], { pkgC7 with
        effname := some pkgC7.name
        ignore := false
        ignoreversion := false }) :=
  no_match_identity [ruleC7] [0] pkgC7
    (by
      intro r hr
      rw [List.mem_singleton] at hr
      subst hr
      decide)
    rfl rfl

/-- Rule `{replaceinname: {"a": "b", "b": "c"}}` (ordered mapping). -/
def mapRule : Rule :=
  { replaceinname := some [("a", "b"), ("b", "c")], pretty := "rule C8" }

/-- C8: `ApplyRule` computes the new name by the fixed stage order
setname-substitution, then the `replaceinname` pairs folded left in
declared order (each literal replacement over the previous result), then
optional lowercasing; and the ordered map `{"a": "b", "b": "c"}` applied to
`"a"` yields `"c"` (sequential, not simultaneous). -/
theorem apply_stage_order :
    (∀ (r : Rule) (n v : String),
      ApplyRule r n v = (SetnameStep r n).map
        (fun n1 => (ruleFlags r, ToLowernameStep r (ReplaceinnameStep r n1))))
    ∧ ReplaceinnameStep mapRule "a" = "c"
    ∧ ApplyRule mapRule "a" "1" = some ({}, "c") := by
  refine ⟨ApplyRule_eq_stages, ?_, ?_⟩
  · simp [ReplaceinnameStep, mapRule, pyReplace, pyReplaceAux]
  · simp [ApplyRule, mapRule, pyReplace, pyReplaceAux]

/-- C8 witness: the stage decomposition at a concrete input. -/
theorem apply_stage_order_witness :
    ApplyRule mapRule "z" "1" = (SetnameStep mapRule "z").map
      (fun n1 => (ruleFlags mapRule,
        ToLowernameStep mapRule (ReplaceinnameStep mapRule n1))) :=
  apply_stage_order.1 mapRule "z" "1"

/-- The `GetUnmatchedRules` loop is the order-preserving filter of the
rules with counter zero, rendered by their captured pretty text. -/
theorem GetUnmatchedRulesAux_eq_filter :
    ∀ (rs : List Rule) (cs : List Nat), cs.length = rs.length →
      GetUnmatchedRulesAux rs cs =
        ((rs.zip cs).filter (fun p => p.2 == 0)).map (fun p => p.1.pretty) := by
  intro rs
  induction rs with
  | nil => intro cs _; simp [GetUnmatchedRulesAux]
  | cons r rs ih =>
    intro cs hlen
    cases cs with
    | nil => simp at hlen
    | cons c cs =>
      have hlen2 : cs.length = rs.length := by simpa using hlen
      by_cases hc : c = 0
      · subst hc
        simp [GetUnmatchedRulesAux, ih cs hlen2]
      · rw [GetUnmatchedRulesAux, if_neg hc]
        have hc2 : (c == 0) = false := by simpa using hc
        simp [hc2, ih cs hlen2]

/-- C9: `GetUnmatchedRules` returns exactly the `pretty` source texts of
the rules whose counter is zero, in original rule order (first conjunct);
`Process` never decreases a counter (second conjunct), and a rule whose
conditions held during a `Process` call ends with a strictly positive
counter (third conjunct) — hence it is excluded from the result, while a
never-matched rule keeps counter 0 and is included at its position. -/
theorem unmatched_rules_characterisation :
    (∀ (T : PackageTransformer) (counts : List Nat),
      counts.length = T.rules.length →
      GetUnmatchedRules T counts =
        ((T.rules.zip counts).filter (fun p => p.2 == 0)).map
          (fun p => p.1.pretty))
    ∧ (∀ (T : PackageTransformer) (counts : List Nat) (pkg : Package)
         (counts1 : List Nat) (pkg1 : Package),
        Process T counts pkg = some (counts1, pkg1) →
        ∀ j, counts.getD j 0 ≤ counts1.getD j 0)
    ∧ (∀ (T : PackageTransformer) (v c f : String) (i : Nat)
         (rest : List Nat) (st st1 : PState) (b : Bool),
        i < st.counts.length →
        MatchRule (T.rules.getD i {}) st.name v c f = true →
        ProcessPackRules T v c f (i :: rest) st = some (st1, b) →
        st.counts.getD i 0 + 1 ≤ st1.counts.getD i 0) := by
  refine ⟨?_, ?_, ?_⟩
  · intro T counts hlen
    exact GetUnmatchedRulesAux_eq_filter T.rules counts hlen
  · intro T counts pkg counts1 pkg1 h j
    rw [Process] at h
    cases hR : ProcessPacks T pkg.version pkg.category pkg.family T.rulepacks
        ⟨counts, pkg.name, pkg.ignore, pkg.ignoreversion⟩ with
    | none => rw [hR] at h; exact absurd h (by simp)
    | some p =>
      obtain ⟨st, b⟩ := p
      rw [hR] at h
      simp only [Option.some.injEq, Prod.mk.injEq] at h
      have := ProcessPacks_counts_mono T pkg.version pkg.category pkg.family
        T.rulepacks ⟨counts, pkg.name, pkg.ignore, pkg.ignoreversion⟩ st b hR j
      exact h.1 ▸ this
  · intro T v c f i rest st st1 b hlen hm h
    cases hA : ApplyRule (T.rules.getD i {}) st.name v with
    | none =>
      rw [ProcessPackRules_cons_of_apply_none T v c f i rest st hm hA] at h
      exact absurd h (by simp)
    | some p =>
      obtain ⟨fl, n'⟩ := p
      rw [ProcessPackRules_cons_of_match T v c f i rest st fl n' hm hA] at h
      have hself := getD_bumpCount_self st.counts i hlen
      by_cases hL : fl.lastrule
      · rw [if_pos hL] at h
        simp only [Option.some.injEq, Prod.mk.injEq] at h
        rw [← h.1]
        simp only [stepState]
        omega
      · rw [if_neg hL] at h
        have hmono := ProcessPackRules_counts_mono T v c f rest _ st1 b h i
        simp only [stepState] at hmono
        omega

/-- Two trivially distinct rules for the diagnostics witness. -/
def ruleC9a : Rule := { pretty := "rule C9a" }

def ruleC9b : Rule := { pretty := "rule C9b" }

def tC9 : PackageTransformer := mkTransformer [ruleC9a, ruleC9b]

/-- C9 witness: the characterisation at a concrete counter state. -/
theorem unmatched_rules_characterisation_witness :
    GetUnmatchedRules tC9 [0, 1] =
      ((tC9.rules.zip [0, 1]).filter (fun p => p.2 == 0)).map
        (fun p => p.1.pretty) :=
  unmatched_rules_characterisation.1 tC9 [0, 1] rfl

/-- C10: when a matched rule's application succeeds, the rule loop steps to
`stepState`, in which the `unignore` effect is applied *after* the `ignore`
effect of the same rule and overrides it: a rule declaring both leaves
`ignore = false`, and likewise a rule declaring both `ignorever` and
`unignorever` leaves `ignoreversion = false`. -/
theorem unignore_overrides_ignore :
    ∀ (T : PackageTransformer) (v c f : String) (i : Nat) (rest : List Nat)
      (st : PState) (fl : MatchResultFlags) (n' : String),
      MatchRule (T.rules.getD i {}) st.name v c f = true →
      ApplyRule (T.rules.getD i {}) st.name v = some (fl, n') →
      (ProcessPackRules T v c f (i :: rest) st =
        if fl.lastrule then some (stepState st i fl n', true)
        else ProcessPackRules T v c f rest (stepState st i fl n'))
      ∧ ((T.rules.getD i {}).ignore = true →
          (T.rules.getD i {}).unignore = true →
          (stepState st i fl n').ignore = false)
      ∧ ((T.rules.getD i {}).ignorever = true →
          (T.rules.getD i {}).unignorever = true →
          (stepState st i fl n').ignoreversion = false) := by
  intro T v c f i rest st fl n' hm ha
  have hfl : fl = ruleFlags (T.rules.getD i {}) := ApplyRule_flags _ _ _ _ _ ha
  refine ⟨ProcessPackRules_cons_of_match T v c f i rest st fl n' hm ha,
    ?_, ?_⟩
  · intro _ hun
    have hb : fl.unignorepackage = true := by
      rw [hfl]
      simpa [ruleFlags] using hun
    simp [stepState, hb]
  · intro _ hun
    have hb : fl.unignoreversion = true := by
      rw [hfl]
      simpa [ruleFlags] using hun
    simp [stepState, hb]

/-- Rule declaring `ignore`, `unignore`, `ignorever` and `unignorever`. -/
def ruleC10 : Rule :=
  { ignore := true, unignore := true, ignorever := true, unignorever := true,
    pretty := "rule C10" }

def tC10 : PackageTransformer := mkTransformer [ruleC10]

/-- C10 witness: the override at a concrete rule and state. -/
theorem unignore_overrides_ignore_witness :
    (ProcessPackRules tC10 "1" "x" "f" (0 :: []) ⟨[0], "n", false, false⟩ =
      if (ruleFlags ruleC10).lastrule then
        some (stepState ⟨[0], "n", false, false⟩ 0 (ruleFlags ruleC10) "n",
          true)
      else ProcessPackRules tC10 "1" "x" "f" []
        (stepState ⟨[0], "n", false, false⟩ 0 (ruleFlags ruleC10) "n"))
    ∧ (ruleC10.ignore = true → ruleC10.unignore = true →
        (stepState ⟨[0], "n", false, false⟩ 0 (ruleFlags ruleC10) "n").ignore
          = false)
    ∧ (ruleC10.ignorever = true → ruleC10.unignorever = true →
        (stepState ⟨[0], "n", false, false⟩ 0 (ruleFlags ruleC10)
          "n").ignoreversion = false) :=
  unignore_overrides_ignore tC10 "1" "x" "f" 0 [] ⟨[0], "n", false, false⟩
    (ruleFlags ruleC10) "n" rfl rfl
